import Mathlib

/-!
Verification of the chinese-dictionary conversion pipeline.

The repository contains three pipeline variants (`get_dict.py`, strict;
`converte_dict.py`, permissive with a dedicated idiom normalizer;
`get_translation.py`, translation-enabled).  Python strings are embedded as
`List Char`; Python dicts used as key-value maps are embedded as insertion-
ordered association lists with overwrite-in-place insertion, matching dict
semantics for lookup, membership and update.  Fallible functions return
`Option`.  Helper names follow the Python sources; where two variants define
a function of the same name, the suffixes `_gd`, `_cd` and `_tr` mark the
`get_dict`, `converte_dict` and `get_translation` variants.
-/

/-- Python strings, embedded as lists of characters. -/
abbrev Str := List Char

/-- Converts a Lean string literal to the embedded string type. -/
def str (s : String) : Str := s.toList

/-- The whitespace characters matched by Python's `str.strip`, `str.split()`
and the regex class `\s` (restricted to the ASCII range; the corpus holds no
exotic Unicode whitespace). -/
def isWS (c : Char) : Bool :=
  c = ' ' || c = '\t' || c = '\n' || c = '\r' || c = '\x0b' || c = '\x0c'

/-- Python `str.strip()`: drop whitespace from both ends. -/
def pyStrip (s : Str) : Str :=
  ((s.dropWhile isWS).reverse.dropWhile isWS).reverse

/-- Splits a list at every character satisfying `p`, keeping empty segments,
like `re.split` with a single-character class. -/
def splitOnPred (p : Char → Bool) : Str → List Str
  | [] => [[]]
  | c :: rest =>
    if p c then [] :: splitOnPred p rest
    else match splitOnPred p rest with
      | [] => [[c]]
      | seg :: segs => (c :: seg) :: segs

/-- Python `str.split()` with no argument: split on whitespace runs and drop
empty tokens. -/
def splitWS (s : Str) : List Str :=
  (splitOnPred isWS s).filter (· ≠ [])

/-- Python `str.split(sep)` for a single-character separator. -/
def splitChar (sep : Char) (s : Str) : List Str :=
  splitOnPred (· = sep) s

/-- Python `str.split(sep, maxsplit)` helper: `cur` is the reversed current
chunk, `n` the number of splits still allowed. -/
def splitNAux (sep : Char) : List Char → Nat → Str → List Str
  | rest, 0, cur => [cur.reverse ++ rest]
  | [], _ + 1, cur => [cur.reverse]
  | c :: rest, n + 1, cur =>
    if c = sep then cur.reverse :: splitNAux sep rest n []
    else splitNAux sep rest (n + 1) (c :: cur)

/-- Python `str.split(sep, maxsplit)` for a single-character separator. -/
def splitN (s : Str) (sep : Char) (maxsplit : Nat) : List Str :=
  splitNAux sep s maxsplit []

/-- Python `sep.join(parts)`. -/
def joinStr (sep : Str) : List Str → Str
  | [] => []
  | [x] => x
  | x :: rest => x ++ sep ++ joinStr sep rest

/-- Python `re.sub(r'\d', '', s)`: remove ASCII decimal digits. -/
def stripDigits (s : Str) : Str :=
  s.filter (fun c => !c.isDigit)

/-- Python `re.sub(r'[\d\s]', '', s)`: remove digits and whitespace. -/
def stripDigitsWS (s : Str) : Str :=
  s.filter (fun c => !(c.isDigit || isWS c))

/-- Python dict assignment `d[k] = v` on an insertion-ordered association
list: overwrite in place if the key exists, else append. -/
def dinsert {κ ν : Type} [DecidableEq κ] : List (κ × ν) → κ → ν → List (κ × ν)
  | [], k, v => [(k, v)]
  | (k', v') :: t, k, v =>
    if k' = k then (k, v) :: t else (k', v') :: dinsert t k v

/-- Python dict lookup `d.get(k)` on an association list. -/
def dlookup {κ ν : Type} [DecidableEq κ] : List (κ × ν) → κ → Option ν
  | [], _ => none
  | (k', v) :: t, k => if k' = k then some v else dlookup t k

/-- Python `list.index` returning `none` instead of raising `ValueError`. -/
def firstIdx [DecidableEq α] : List α → α → Option Nat
  | [], _ => none
  | x :: t, a => if x = a then some 0 else (firstIdx t a).map (· + 1)

/-! ## JSON values (model of the `json` library's parse results) -/

/-- Parsed JSON values as produced by Python's `json.loads`.  Numbers are
restricted to integers; the corpus and the claims use no floats. -/
inductive JVal : Type
  | jnull : JVal
  | jbool : Bool → JVal
  | jnum : Int → JVal
  | jstr : Str → JVal
  | jarr : List JVal → JVal
  | jobj : List (Str × JVal) → JVal

/-- Python truthiness of a parsed JSON value (`if parsed:`). -/
def pytruthy : JVal → Bool
  | .jnull => false
  | .jbool b => b
  | .jnum n => n != 0
  | .jstr s => !s.isEmpty
  | .jarr l => !l.isEmpty
  | .jobj l => !l.isEmpty

/-- Digits-to-number accumulator for the scalar JSON parser. -/
def natFromDigits (s : Str) : Nat :=
  s.foldl (fun a c => a * 10 + (c.toNat - 48)) 0

/-- Model of Python `json.loads` restricted to scalar literals: `null`,
`true`, `false`, non-negative integer literals, and simple quoted strings
without escapes or embedded quotes.  Inputs outside this fragment yield
`none` (standing for a parse outcome the model does not cover); the claims
about the loader only ever evaluate it on scalar lines. -/
def jsonLoadsLit (s : Str) : Option JVal :=
  if s = str "null" then some .jnull
  else if s = str "true" then some (.jbool true)
  else if s = str "false" then some (.jbool false)
  else if s ≠ [] ∧ s.all Char.isDigit then some (.jnum (natFromDigits s))
  else if 2 ≤ s.length ∧ s.head? = some '"' ∧ s.getLast? = some '"'
          ∧ (s.drop 1).dropLast.all (fun c => c != '"' && c != '\\') then
    some (.jstr ((s.drop 1).dropLast))
  else none

/-! ## Tolerant record loader (`converte_dict.clean_json_line`,
`load_json_lines`) -/

/-- `converte_dict.clean_json_line`, parameterized by the JSON parser
`loads`: strip the line, drop it if empty, strip one trailing comma, try a
strict parse, and on failure retry after replacing single quotes with double
quotes. -/
def clean_json_line (loads : Str → Option JVal) (line : Str) : Option JVal :=
  let l := pyStrip line
  if l = [] then none
  else
    let l := if l.getLast? = some ',' then l.dropLast else l
    match loads l with
    | some v => some v
    | none => loads (l.map fun c => if c = '\'' then '"' else c)

/-- `converte_dict.load_json_lines` on an in-memory list of lines: parse each
line and keep the parsed value when Python finds it truthy
(`if parsed: data.append(parsed)`). -/
def load_json_lines (loads : Str → Option JVal) (lines : List Str) : List JVal :=
  lines.filterMap fun l =>
    (clean_json_line loads l).bind fun v =>
      if pytruthy v then some v else none

/-! ## Pinyin normalizer (`get_translation.py`) -/

/-- The 25 marked vowels accepted by `PINYIN_PATTERN` beyond `a`-`z`. -/
def markedChars : Str := str "āáǎàēéěèīíǐìōóǒòūúǔùǖǘǚǜü"

/-- One character of `PINYIN_PATTERN`'s class `[a-zāáǎàēéěèīíǐìōóǒòūúǔùǖǘǚǜü]`. -/
def pinyinChar (c : Char) : Bool :=
  ('a' ≤ c && c ≤ 'z') || c ∈ markedChars

/-- `validate_pinyin`: full match of `PINYIN_PATTERN` (one or more class
characters). -/
def validate_pinyin (s : Str) : Bool :=
  s ≠ [] && s.all pinyinChar

/-- The ordered substitution table of `convert_tone_markers`. -/
def tonePairs : List (Char × Str) :=
  [('ā', str "a1"), ('á', str "a2"), ('ǎ', str "a3"), ('à', str "a4"),
   ('ē', str "e1"), ('é', str "e2"), ('ě', str "e3"), ('è', str "e4"),
   ('ī', str "i1"), ('í', str "i2"), ('ǐ', str "i3"), ('ì', str "i4"),
   ('ō', str "o1"), ('ó', str "o2"), ('ǒ', str "o3"), ('ò', str "o4"),
   ('ū', str "u1"), ('ú', str "u2"), ('ǔ', str "u3"), ('ù', str "u4"),
   ('ǖ', str "v1"), ('ǘ', str "v2"), ('ǚ', str "v3"), ('ǜ', str "v4"),
   ('ü', str "v")]

/-- Python `s.replace(marker, replacement)` for a single-character marker. -/
def replaceChar (t : Char) (rep : Str) (s : Str) : Str :=
  s.flatMap fun c => if c = t then rep else [c]

/-- `convert_tone_markers`: substitute each marked vowel by its ASCII vowel
plus tone digit (`yǐ → yi3`), applying the 25 replacements in order. -/
def convert_tone_markers (p : Str) : Str :=
  tonePairs.foldl (fun s pr => replaceChar pr.1 pr.2 s) p

/-- `split_pinyin`: split on whitespace or the full-width comma and strip
each nonempty token. -/
def split_pinyin (s : Str) : List Str :=
  ((splitOnPred (fun c => c = '，' || isWS c) s).map pyStrip).filter (· ≠ [])

/-- The vowel string `'aeiouv'` scanned by `convert_numbered_pinyin`. -/
def vowelsList : Str := str "aeiouv"

/-- The `tone_map` of `convert_numbered_pinyin`: for each plain vowel, its
five tone slots (slot 0 is the bare vowel). -/
def toneRow : Char → Option Str
  | 'a' => some (str "aāáǎà")
  | 'e' => some (str "eēéěè")
  | 'i' => some (str "iīíǐì")
  | 'o' => some (str "oōóǒò")
  | 'u' => some (str "uūúǔù")
  | 'v' => some (str "üǖǘǚǜ")
  | _ => none

/-- The vowel-position scan of `convert_numbered_pinyin`: walk left to right;
on a vowel, record its index and stop unless it is a non-final `i`; `cand`
holds the last recorded index (`vowel_pos`), `total` the syllable length. -/
def scanVowelAux (total : Nat) : List Char → Nat → Option Nat → Option Nat
  | [], _, cand => cand
  | c :: rest, i, cand =>
    if c ∈ vowelsList then
      if c ≠ 'i' ∨ i = total - 1 then some i
      else scanVowelAux total rest (i + 1) (some i)
    else scanVowelAux total rest (i + 1) cand

/-- The index of the vowel that receives the tone mark, or `none` when the
scan of `convert_numbered_pinyin` finds no vowel. -/
def findVowelPos (s : Str) : Option Nat :=
  scanVowelAux s.length s 0 none

/-- Python `pinyin.replace('u:', 'v')`: non-overlapping left-to-right
replacement of the two-character sequence. -/
def replaceUColon : Str → Str
  | [] => []
  | [c] => [c]
  | c :: c2 :: rest =>
    if c = 'u' ∧ c2 = ':' then 'v' :: replaceUColon rest
    else c :: replaceUColon (c2 :: rest)

/-- The body of `convert_numbered_pinyin` without the bracket wrapping:
apply the `u:` rewrite, find the vowel to mark, and substitute from
`tone_map` when the tone is in `0..4`. -/
def convertCore (p0 : Str) (tone : Nat) : Str :=
  let p := replaceUColon p0
  match findVowelPos p with
  | none => p
  | some k =>
    match toneRow (p.getD k ' ') with
    | none => p
    | some row =>
      if tone ≤ 4 then p.take k ++ [row.getD tone ' '] ++ p.drop (k + 1)
      else p

/-- Numeric value of a tone digit character. -/
def digitToNat (c : Char) : Nat := c.toNat - 48

/-- `int(match.group(2)) if match.group(2) else 0`. -/
def toneOfDigit : Option Char → Nat
  | some c => digitToNat c
  | none => 0

/-- `convert_numbered_pinyin` on the two regex groups: convert and re-wrap
in brackets (`f"[{pinyin}]"`). -/
def convert_numbered_pinyin (letters : Str) (d : Option Char) : Str :=
  '[' :: convertCore letters (toneOfDigit d) ++ [']']

/-- `a ≤ c ≤ z`, the regex class `[a-z]`. -/
def isLowerAlpha (c : Char) : Bool := 'a' ≤ c && c ≤ 'z'

/-- Matches the tail of the regex `\[([a-z]+)(\d?)\]` right after an opening
bracket: a maximal nonempty run of lowercase letters, an optional single
digit, and the closing bracket; returns the two groups and the rest of the
input. -/
def tryMatchPy (s : Str) : Option (Str × Option Char × Str) :=
  let letters := s.takeWhile isLowerAlpha
  let rest := s.dropWhile isLowerAlpha
  if letters = [] then none
  else
    match rest with
    | ']' :: r => some (letters, none, r)
    | c :: ']' :: r => if c.isDigit then some (letters, some c, r) else none
    | _ => none

theorem tryMatchPy_length {s l r : Str} {d : Option Char}
    (h : tryMatchPy s = some (l, d, r)) : r.length < s.length := by
  have hsplit : (s.takeWhile isLowerAlpha).length
      + (s.dropWhile isLowerAlpha).length = s.length := by
    have h2 := List.length_append (s.takeWhile isLowerAlpha) (s.dropWhile isLowerAlpha)
    rw [List.takeWhile_append_dropWhile] at h2
    omega
  unfold tryMatchPy at h
  by_cases hl : s.takeWhile isLowerAlpha = []
  · simp [hl] at h
  · have hlen : 0 < (s.takeWhile isLowerAlpha).length := List.length_pos.mpr hl
    simp only [if_neg hl] at h
    split at h
    next r0 heq =>
      obtain ⟨-, -, hr⟩ : l = s.takeWhile isLowerAlpha ∧ d = none ∧ r = r0 := by
        simpa [eq_comm] using h
      subst hr
      rw [heq] at hsplit
      simp at hsplit
      omega
    next cch r0 hne heq =>
      split at h
      · obtain ⟨-, -, hr⟩ : l = s.takeWhile isLowerAlpha ∧ d = some cch ∧ r = r0 := by
          simpa [eq_comm] using h
        subst hr
        rw [heq] at hsplit
        simp at hsplit
        omega
      · exact absurd h (by simp)
    next heq1 heq2 =>
      exact absurd h (by simp)

/-- The rewriting loop of `convert_translation_pinyin`: scan the text, and
rewrite every bracketed run matching `\[([a-z]+)(\d?)\]` through
`convert_numbered_pinyin`, leaving everything else untouched. -/
def rewriteBrackets : Str → Str
  | [] => []
  | c :: rest =>
    if c = '[' then
      match hm : tryMatchPy rest with
      | some (letters, d, r) => convert_numbered_pinyin letters d ++ rewriteBrackets r
      | none => '[' :: rewriteBrackets rest
    else c :: rewriteBrackets rest
termination_by s => s.length
decreasing_by
  · have := tryMatchPy_length hm
    simp
    omega
  · simp
  · simp

/-- `convert_translation_pinyin`: rewrite all embedded numeric-tone pinyin
references of a translation text. -/
def convert_translation_pinyin (s : Str) : Str := rewriteBrackets s

/-- The diacritic conversion of a single bare syllable: the effect of
`convert_translation_pinyin` on the bracketed token `[s]`, with the brackets
removed — the shape in which the spec's `numeric_to_diacritic` and the
round-trip property speak about syllables.  A syllable not matching
`([a-z]+)(\d?)` is left unchanged, as the regex rewriter leaves it. -/
def diaSyllable (s : Str) : Str :=
  match tryMatchPy (s ++ [']']) with
  | some (letters, d, []) => convertCore letters (toneOfDigit d)
  | _ => s

/-! ## Translation index (`get_translation.load_cc_cedict`,
`get_translation.get_translation`) -/

/-- A Python dict key as used around the translation index: the index is
keyed by `(word, pinyin)` tuples, while `process_word` in
`get_translation.py` looks it up with a bare string; Python compares such
keys by (always-failing) equality across the two shapes. -/
inductive PyKey : Type
  | s : Str → PyKey
  | pair : Str → Str → PyKey
  deriving DecidableEq

/-- The translation index: an insertion-ordered dict from keys to the
newline-joined translation blob. -/
abbrev TransDict := List (PyKey × Str)

/-- The per-headword indexing step of `load_cc_cedict` (the body of
`for word in [trad, simp]`): always write the exact key
`(word, pinyin)`, then write the tone-stripped fallback key only when it is
not yet present. -/
def cedictStep (d : TransDict) (w py trs : Str) : TransDict :=
  let d1 := dinsert d (.pair w py) trs
  if (dlookup d1 (.pair w (stripDigits py))).isSome then d1
  else dinsert d1 (.pair w (stripDigits py)) trs

/-- `trs = ''; for tr in translations: trs += tr + '\n'`. -/
def joinAfterEach (l : List Str) : Str :=
  l.foldl (fun a t => a ++ t ++ ['\n']) []

/-- `parse_cc_cedict_line`: reject comment and blank lines, split into at
most four space-separated fields, strip the brackets around the pinyin
field, and rebuild the translation blob from the inner slash-delimited
segments after rewriting embedded numeric pinyin. -/
def parse_cc_cedict_line (line : Str) : Option (Str × Str × Str × Str) :=
  if line.head? = some '#' ∨ pyStrip line = [] then none
  else
    match splitN line ' ' 3 with
    | [trad, simp, pyPart, transPart] =>
      let pinyin := pyStrip ((pyPart.drop 1).dropLast)
      let mids := ((splitChar '/' transPart).drop 1).dropLast
      let translations := mids.filterMap fun t =>
        if pyStrip t ≠ [] then some (convert_translation_pinyin (pyStrip t)) else none
      some (trad, simp, pinyin, joinAfterEach translations)
    | _ => none

/-- `load_cc_cedict` over an in-memory list of lines: fold the per-headword
indexing step over every parsed line, for the traditional and the simplified
headword when non-empty. -/
def load_cc_cedict (lines : List Str) : TransDict :=
  lines.foldl
    (fun d line =>
      match parse_cc_cedict_line line with
      | none => d
      | some (trad, simp, pinyin, trs) =>
        [trad, simp].foldl
          (fun d w => if w ≠ [] then cedictStep d w pinyin trs else d) d)
    []

/-- The priority probe loop of `get_translation`
(`for test_pinyin in [pinyin_numeric, pinyin_clean]`). -/
def probeKeys (d : TransDict) (w : Str) : List Str → Str
  | [] => []
  | k :: rest =>
    match dlookup d (.pair w k) with
    | some t => t
    | none => probeKeys d w rest

/-- `get_translation`: normalize the diacritic pinyin to numeric form,
derive the toneless form, probe the numeric key then the toneless key, and
return the first hit or the empty string. -/
def get_translation (w p : Str) (d : TransDict) : Str :=
  let n := convert_tone_markers p
  let c := stripDigits n
  probeKeys d w [n, c]

/-! ## Source records and the output schema -/

/-- An `explanations[]` element; `content = none` models an absent key. -/
structure ExpEntry : Type where
  content : Option Str
  deriving DecidableEq

/-- The union-typed `pinyin` field of word records: a string or a list of
strings. -/
inductive PinyinField : Type
  | pstr : Str → PinyinField
  | plist : List Str → PinyinField
  deriving DecidableEq

/-- The union-typed `story` field of idiom records. -/
inductive StoryField : Type
  | sstr : Str → StoryField
  | slist : List Str → StoryField
  deriving DecidableEq

/-- The union-typed `example` field of idiom records: a dict with optional
`text` and `book` keys, or a plain string. -/
inductive ExampleField : Type
  | edict : Option Str → Option Str → ExampleField
  | estr : Str → ExampleField
  deriving DecidableEq

/-- A word or idiom source record, holding every field the normalizers
read; `none` models an absent key.  The `example` field is spelled
`example_` because `example` is a Lean keyword. -/
structure Record : Type where
  word : Option Str := none
  pinyin : Option PinyinField := none
  explanation : Option Str := none
  explanations : Option (List ExpEntry) := none
  story : Option StoryField := none
  example_ : Option ExampleField := none
  similar : Option (List Str) := none
  opposite : Option (List Str) := none
  deriving DecidableEq

/-- A character base record (`char_base`); the `pinyin` list may hold
non-string JSON values, which the permissive normalizers filter with
`isinstance(py, str)`. -/
structure CharRecord : Type where
  char : Option Str := none
  traditional : Option Str := none
  pinyin : Option (List JVal) := none

/-- One pronunciation of a character detail record. -/
structure Pron : Type where
  pinyin : Option Str := none
  explanations : Option (List ExpEntry) := none

/-- A character detail record (`char_detail`). -/
structure DetailRecord : Type where
  char : Option Str := none
  pronunciations : Option (List Pron) := none

/-- A meaning entry of the unified output schema. -/
structure Meaning : Type where
  pinyin : Nat
  original : Str
  translation : Str
  deriving DecidableEq

/-- The unified output schema (`word`, `lemma`, `phonetic`, `pinyin`,
`meaning`); the `lemma` field is spelled `lemma_` because `lemma` is a Lean
keyword. -/
structure OutputEntry : Type where
  word : Str
  lemma_ : Str
  phonetic : Str
  pinyin : List Str
  meaning : List Meaning
  deriving DecidableEq

/-- The schema invariant stated in the spec: every `meaning.pinyin` is a
valid position in the entry's `pinyin` array. -/
def meaningIndexInvariant (e : OutputEntry) : Prop :=
  ∀ m ∈ e.meaning, m.pinyin < e.pinyin.length

/-- Extract the string payload of a JSON value (`isinstance(py, str)`). -/
def jvalStr : JVal → Option Str
  | .jstr s => some s
  | _ => none

/-- The pinyin segments of a word record
(`word_data["pinyin"] if isinstance(..., list) else word_data["pinyin"].split()`). -/
def pinyinSegments : PinyinField → List Str
  | .plist l => l
  | .pstr s => splitWS s

/-! ## Entry normalizers -/

/-- Explanation resolution of `get_dict.process_word`: the `explanation`
field when non-empty, else the `; `-join of every `content` value present in
`explanations` (no truthiness check on the individual contents). -/
def resolvedExplGd (wd : Record) : Str :=
  let e := wd.explanation.getD []
  if e = [] ∧ wd.explanations.isSome then
    joinStr (str "; ") ((wd.explanations.getD []).filterMap (·.content))
  else e

/-- The syllable-cleaning loop of `get_dict.process_word`: strip digits and
whitespace from each segment and keep only those passing
`validate_pinyin`. -/
def validSyllablesGd (segs : List Str) : List Str :=
  segs.filterMap fun py =>
    let c := stripDigitsWS py
    if validate_pinyin c then some c else none

/-- `get_dict.process_word` (strict variant): reject on missing fields,
syllable-count mismatch, no surviving validated syllable, or empty resolved
explanation. -/
def process_word_gd (wd : Record) : Option OutputEntry :=
  match wd.word, wd.pinyin with
  | some w, some pf =>
    let segs := pinyinSegments pf
    if w.length ≠ segs.length then none
    else
      let valid := validSyllablesGd segs
      if valid = [] then none
      else
        let expl := resolvedExplGd wd
        if expl = [] then none
        else some ⟨w, [], [], valid, [⟨0, expl, []⟩]⟩
  | _, _ => none

/-- Explanation resolution of `converte_dict.process_word`: the
`explanation` field when non-empty, else the newline-join of the non-empty
`content` values of `explanations`. -/
def resolvedExplCd (wd : Record) : Str :=
  let e := wd.explanation.getD []
  if e = [] ∧ wd.explanations.isSome then
    joinStr ['\n'] ((wd.explanations.getD []).filterMap fun x =>
      x.content.bind fun c => if c ≠ [] then some c else none)
  else e

/-- `converte_dict.process_word` (permissive variant): reject only on
missing fields or syllable-count mismatch; keep all cleaned syllables
unvalidated and accept an empty explanation. -/
def process_word_cd (wd : Record) : Option OutputEntry :=
  match wd.word, wd.pinyin with
  | some w, some pf =>
    let segs := pinyinSegments pf
    if w.length ≠ segs.length then none
    else
      let valid := segs.map stripDigitsWS
      let expl := resolvedExplCd wd
      some ⟨w, [], [], valid, [⟨0, (if expl ≠ [] then expl else []), []⟩]⟩
  | _, _ => none

/-- `get_translation.process_word`: no length validation; the translation is
looked up with the bare word string as key. -/
def process_word_tr (wd : Record) (td : TransDict) : Option OutputEntry :=
  match wd.word, wd.pinyin with
  | some w, some pf =>
    let translation := (dlookup td (.s w)).getD []
    let segs := pinyinSegments pf
    some ⟨w, [], [], segs.map stripDigitsWS,
      [⟨0, resolvedExplGd wd, translation⟩]⟩
  | _, _ => none

/-- The explanation list assembled by `converte_dict.process_idiom`, in
fixed order: `explanation`, `story` (flattened), the formatted example
line, then synonym and antonym lines. -/
def idiomExplanations (wd : Record) : List Str :=
  let e1 : List Str :=
    match wd.explanation with
    | some e => if e ≠ [] then [e] else []
    | none => []
  let e2 : List Str :=
    match wd.story with
    | some (.slist l) => e1 ++ l
    | some (.sstr s) => if s ≠ [] then e1 ++ [s] else e1
    | none => e1
  let e3 : List Str :=
    match wd.example_ with
    | some (.edict text book) =>
      let t := text.getD []
      let t :=
        match book with
        | some b => t ++ str "（出处：" ++ b ++ str "）"
        | none => t
      if t ≠ [] then e2 ++ [str "例句：" ++ t] else e2
    | some (.estr s) => if s ≠ [] then e2 ++ [str "例句：" ++ s] else e2
    | none => e2
  let e4 : List Str :=
    match wd.similar with
    | some l => if l ≠ [] then e3 ++ [str "近义词：" ++ joinStr (str "、") l] else e3
    | none => e3
  match wd.opposite with
  | some l => if l ≠ [] then e4 ++ [str "反义词：" ++ joinStr (str "、") l] else e4
  | none => e4

/-- `converte_dict.process_idiom`: split the pinyin string on whitespace and
the full-width comma, strip digits from each trimmed segment, keep the
non-empty ones, and put the assembled explanation into a single meaning at
pinyin index 0.  A list-valued `pinyin` raises a `TypeError` in the source
(`re.split` needs a string); the model maps it to a rejection. -/
def process_idiom (wd : Record) : Option OutputEntry :=
  match wd.word, wd.pinyin with
  | some w, some (.pstr raw) =>
    let segs :=
      ((splitOnPred (fun c => c = '，' || isWS c) raw).map
        fun seg => stripDigits (pyStrip seg)).filter (· ≠ [])
    let exps := idiomExplanations wd
    some ⟨w, [], [], segs,
      [if exps ≠ [] then ⟨0, joinStr ['\n'] exps, []⟩ else ⟨0, [], []⟩]⟩
  | _, _ => none

/-- `get_dict.process_character` (strict variant): keep only validated
pinyin, resolve each pronunciation against the existing pinyin list
(skipping unknown pronunciations), emit one meaning per explanation content,
and reject the record unless both lists are non-empty.  Non-string entries
of the `pinyin` field would raise in the source (`re.match` needs a
string); the model treats them as failing validation. -/
def process_character_gd (cd : CharRecord) (dd : DetailRecord) : Option OutputEntry :=
  match cd.char with
  | none => none
  | some ch =>
    let pys := (cd.pinyin.getD []).filterMap fun v =>
      (jvalStr v).bind fun s => if validate_pinyin s then some s else none
    let ms := (dd.pronunciations.getD []).foldl
      (fun acc pron =>
        match pron.pinyin with
        | none => acc
        | some p =>
          match firstIdx pys p with
          | none => acc
          | some idx =>
            acc ++ (pron.explanations.getD []).filterMap fun x =>
              (x.content).map fun c => (⟨idx, c, []⟩ : Meaning))
      []
    if pys ≠ [] ∧ ms ≠ [] then some ⟨ch, cd.traditional.getD [], [], pys, ms⟩
    else none

/-- `converte_dict.process_character` (permissive variant): keep every
string pinyin unvalidated, append unknown pronunciations to the pinyin
list, always emit a meaning per pronunciation, and synthesize an empty
meaning for every pinyin position left without one. -/
def process_character_cd (cd : CharRecord) (dd : DetailRecord) : OutputEntry :=
  let pys0 := (cd.pinyin.getD []).filterMap jvalStr
  let st := (dd.pronunciations.getD []).foldl
    (fun (st : List Str × List Meaning) pron =>
      match pron.pinyin with
      | none => st
      | some p =>
        let pys := st.1
        let ms := st.2
        match firstIdx pys p with
        | some i => (pys, ms ++ [⟨i, joinStr ['\n']
            ((pron.explanations.getD []).filterMap fun x =>
              x.content.bind fun c => if c ≠ [] then some c else none), []⟩])
        | none => (pys ++ [p], ms ++ [⟨pys.length, joinStr ['\n']
            ((pron.explanations.getD []).filterMap fun x =>
              x.content.bind fun c => if c ≠ [] then some c else none), []⟩]))
    (pys0, [])
  let ms2 := (List.range st.1.length).foldl
    (fun acc i => if acc.any (fun m => m.pinyin = i) then acc else acc ++ [⟨i, [], []⟩])
    st.2
  ⟨cd.char.getD [], cd.traditional.getD [], [], st.1, ms2⟩

/-- `get_translation.process_character`: the pinyin list comes from the base
record only; each pronunciation of the detail record appends a meaning whose
`pinyin` field is `len(result["meaning"])` — the meaning's own ordinal, not
a resolved index into the pinyin list. -/
def process_character_tr (cd : CharRecord) (dd : DetailRecord) (td : TransDict) :
    OutputEntry :=
  let pys := (cd.pinyin.getD []).filterMap jvalStr
  let ms := (dd.pronunciations.getD []).foldl
    (fun acc pron =>
      match pron.pinyin with
      | none => acc
      | some p =>
        acc ++ [⟨acc.length,
          joinStr ['\n'] ((pron.explanations.getD []).filterMap fun x =>
            x.content.bind fun c => if c ≠ [] then some c else none),
          get_translation (cd.char.getD []) p td⟩])
    []
  ⟨cd.char.getD [], cd.traditional.getD [], [], pys, ms⟩

/-! ## Conversion orchestrators (pure cores of `convert_data`, over the
already-loaded record collections; file reading and serialization are
external I/O) -/

/-- Python truthiness of the `max_items` cap (`if max_items ...`); negative
caps are outside the model (the corpus always passes a positive count or
`None`). -/
def capTruthy : Option Nat → Bool
  | none => false
  | some m => m != 0

/-- The numeric value of the cap. -/
def capVal : Option Nat → Nat
  | none => 0
  | some m => m

/-- The detail map construction shared by both orchestrators
(`char_detail_map[item["char"]] = item`, last write wins). -/
def buildDetailMap (char_detail : List DetailRecord) : List (Str × DetailRecord) :=
  char_detail.foldl
    (fun m it =>
      match it.char with
      | some c => dinsert m c it
      | none => m)
    []

/-- The shared word-processing loop: append each accepted record and stop
as soon as the item cap is reached
(`if max_items and len(converted_data) >= max_items: break`). -/
def wordLoop (f : Record → Option OutputEntry) (cap : Option Nat) :
    List OutputEntry → List Record → List OutputEntry
  | acc, [] => acc
  | acc, r :: rs =>
    match f r with
    | none => wordLoop f cap acc rs
    | some p =>
      if capTruthy cap ∧ capVal cap ≤ (acc ++ [p]).length then acc ++ [p]
      else wordLoop f cap (acc ++ [p]) rs

/-- The idiom loop of `converte_dict.convert_data`: append every accepted
idiom, with no cap check. -/
def idiomFold (acc : List OutputEntry) (rs : List Record) : List OutputEntry :=
  rs.foldl
    (fun a r =>
      match process_idiom r with
      | some p => a ++ [p]
      | none => a)
    acc

/-- The in-memory core of `get_dict.convert_data` (strict variant): capped
characters requiring a detail record, then one capped loop over
`word_data + idiom_data` through the word normalizer. -/
def convert_data_gd (char_base : List CharRecord) (char_detail : List DetailRecord)
    (word_data idiom_data : List Record) (cap : Option Nat) : List OutputEntry :=
  let dmap := buildDetailMap char_detail
  let cs := (if capTruthy cap then char_base.take (capVal cap) else char_base).foldl
    (fun acc c =>
      match c.char with
      | none => acc
      | some ch =>
        match dlookup dmap ch with
        | none => acc
        | some det =>
          match process_character_gd c det with
          | some e => acc ++ [e]
          | none => acc)
    []
  wordLoop process_word_gd cap cs (word_data ++ idiom_data)

/-- The in-memory core of `converte_dict.convert_data` (permissive
variant): capped characters (never skipped), capped words, then the
uncapped idiom loop. -/
def convert_data_cd (char_base : List CharRecord) (char_detail : List DetailRecord)
    (word_data idiom_data : List Record) (cap : Option Nat) : List OutputEntry :=
  let dmap := buildDetailMap char_detail
  let cs := (if capTruthy cap then char_base.take (capVal cap) else char_base).map
    fun c => process_character_cd c ((dlookup dmap (c.char.getD [])).getD {})
  let ws := wordLoop process_word_cd cap cs word_data
  idiomFold ws idiom_data

/-! ## Helper lemmas -/

/-- The lowercase ASCII letters. -/
def lowerAlphaList : Str := str "abcdefghijklmnopqrstuvwxyz"

/-- The tone digits `1`-`4`. -/
def toneDigits : Str := str "1234"

theorem mem_lower_isLower : ∀ c ∈ lowerAlphaList, isLowerAlpha c = true := by decide

theorem toneDigit_not_lower : ∀ d ∈ toneDigits, isLowerAlpha d = false := by decide

theorem toneDigit_isDigit : ∀ d ∈ toneDigits, d.isDigit = true := by decide

theorem toneDigit_le4 : ∀ d ∈ toneDigits, digitToNat d ≤ 4 := by decide

theorem takeWhile_app_all {p : Char → Bool} :
    ∀ (xs : Str) (y : Char) (ys : Str), (∀ c ∈ xs, p c = true) → p y = false →
      (xs ++ y :: ys).takeWhile p = xs
  | [], y, ys, _, hy => by simp [List.takeWhile_cons, hy]
  | x :: xs, y, ys, hall, hy => by
    have hx : p x = true := hall x (by simp)
    simp only [List.cons_append, List.takeWhile_cons, hx, if_true]
    rw [takeWhile_app_all xs y ys (fun c hc => hall c (by simp [hc])) hy]

theorem dropWhile_app_all {p : Char → Bool} :
    ∀ (xs : Str) (y : Char) (ys : Str), (∀ c ∈ xs, p c = true) → p y = false →
      (xs ++ y :: ys).dropWhile p = y :: ys
  | [], y, ys, _, hy => by simp [List.dropWhile_cons, hy]
  | x :: xs, y, ys, hall, hy => by
    have hx : p x = true := hall x (by simp)
    simp only [List.cons_append, List.dropWhile_cons, hx, if_true]
    exact dropWhile_app_all xs y ys (fun c hc => hall c (by simp [hc])) hy

/-- On a syllable of lowercase letters followed by a tone digit, the regex
matcher recovers exactly the letters and the digit. -/
theorem tryMatchPy_syllable (base : Str) (d : Char) (hb : base ≠ [])
    (hlow : ∀ c ∈ base, c ∈ lowerAlphaList) (hd : d ∈ toneDigits) :
    tryMatchPy ((base ++ [d]) ++ [']']) = some (base, some d, []) := by
  have hall : ∀ c ∈ base, isLowerAlpha c = true := fun c hc => mem_lower_isLower c (hlow c hc)
  have hdl : isLowerAlpha d = false := toneDigit_not_lower d hd
  have hshape : (base ++ [d]) ++ [']'] = base ++ d :: [']'] := by simp
  unfold tryMatchPy
  rw [hshape, takeWhile_app_all base d [']'] hall hdl,
    dropWhile_app_all base d [']'] hall hdl]
  simp only [if_neg hb]
  have hd4 : d = '1' ∨ d = '2' ∨ d = '3' ∨ d = '4' := by
    simpa [toneDigits, str] using hd
  rcases hd4 with rfl | rfl | rfl | rfl <;> rfl

theorem replaceUColon_id : ∀ s : Str, (∀ c ∈ s, c ∈ lowerAlphaList) → replaceUColon s = s
  | [], _ => rfl
  | [c], _ => rfl
  | c :: c2 :: rest, h => by
    have hc2 : c2 ∈ lowerAlphaList := h c2 (by simp)
    have hne : ¬(c = 'u' ∧ c2 = ':') := by
      rintro ⟨-, rfl⟩
      revert hc2
      decide
    simp only [replaceUColon, if_neg hne]
    rw [replaceUColon_id (c2 :: rest) (fun x hx => h x (List.mem_cons_of_mem c hx))]

theorem scanAux_vowel :
    ∀ (rest : List Char) (total i : Nat) (cand : Option Nat) (k : Nat),
      scanVowelAux total rest i cand = some k →
      cand = some k ∨ ∃ j, ∃ hj : j < rest.length, k = i + j ∧ rest.get ⟨j, hj⟩ ∈ vowelsList
  | [], _, _, _, _, h => Or.inl h
  | c :: rest, total, i, cand, k, h => by
    unfold scanVowelAux at h
    by_cases hc : c ∈ vowelsList
    · rw [if_pos hc] at h
      by_cases hbr : c ≠ 'i' ∨ i = total - 1
      · rw [if_pos hbr] at h
        obtain rfl : i = k := by simpa using h
        exact Or.inr ⟨0, by simp, by omega, by simpa using hc⟩
      · rw [if_neg hbr] at h
        rcases scanAux_vowel rest total (i + 1) (some i) k h with h1 | ⟨j, hj, hk, hm⟩
        · obtain rfl : i = k := by simpa using h1
          exact Or.inr ⟨0, by simp, by omega, by simpa using hc⟩
        · exact Or.inr ⟨j + 1, by simpa using Nat.succ_lt_succ hj, by omega, by simpa using hm⟩
    · rw [if_neg hc] at h
      rcases scanAux_vowel rest total (i + 1) cand k h with h1 | ⟨j, hj, hk, hm⟩
      · exact Or.inl h1
      · exact Or.inr ⟨j + 1, by simpa using Nat.succ_lt_succ hj, by omega, by simpa using hm⟩

/-- A successful vowel scan returns a valid position whose character is one
of `aeiouv`. -/
theorem findVowelPos_vowel {s : Str} {k : Nat} (h : findVowelPos s = some k) :
    ∃ hk : k < s.length, s.get ⟨k, hk⟩ ∈ vowelsList := by
  rcases scanAux_vowel s s.length 0 none k h with h1 | ⟨j, hj, hk, hm⟩
  · exact absurd h1 (by simp)
  · obtain rfl : k = j := by omega
    exact ⟨hj, hm⟩

theorem toneRow_isSome : ∀ v ∈ vowelsList, (toneRow v).isSome = true := by decide

theorem replaceChar_append (t : Char) (rep : Str) (xs ys : Str) :
    replaceChar t rep (xs ++ ys) = replaceChar t rep xs ++ replaceChar t rep ys := by
  simp [replaceChar]

theorem foldRep_append :
    ∀ (ps : List (Char × Str)) (xs ys : Str),
      ps.foldl (fun s pr => replaceChar pr.1 pr.2 s) (xs ++ ys)
        = ps.foldl (fun s pr => replaceChar pr.1 pr.2 s) xs
          ++ ps.foldl (fun s pr => replaceChar pr.1 pr.2 s) ys
  | [], _, _ => rfl
  | p :: ps, xs, ys => by
    simp only [List.foldl_cons, replaceChar_append]
    exact foldRep_append ps _ _

/-- Tone substitution distributes over concatenation. -/
theorem ctm_append (xs ys : Str) :
    convert_tone_markers (xs ++ ys)
      = convert_tone_markers xs ++ convert_tone_markers ys :=
  foldRep_append tonePairs xs ys

theorem ctm_lower_singleton : ∀ c ∈ lowerAlphaList, convert_tone_markers [c] = [c] := by
  decide

/-- Tone substitution leaves plain lowercase text unchanged. -/
theorem ctm_lower_id : ∀ xs : Str, (∀ c ∈ xs, c ∈ lowerAlphaList) →
    convert_tone_markers xs = xs
  | [], _ => rfl
  | c :: xs, h => by
    have h1 : convert_tone_markers ([c] ++ xs)
        = convert_tone_markers [c] ++ convert_tone_markers xs := ctm_append [c] xs
    simp only [List.singleton_append] at h1
    rw [h1, ctm_lower_singleton c (h c (by simp)),
      ctm_lower_id xs (fun x hx => h x (by simp [hx]))]
    simp

/-- Converting a marked vowel back to numeric form recovers the bare vowel
followed by its tone digit. -/
theorem ctm_marked : ∀ v ∈ vowelsList, ∀ d ∈ toneDigits,
    convert_tone_markers [((toneRow v).getD []).getD (digitToNat d) ' '] = [v, d] := by
  decide

theorem dlookup_dinsert_self {κ ν : Type} [DecidableEq κ] :
    ∀ (d : List (κ × ν)) (k : κ) (v : ν), dlookup (dinsert d k v) k = some v
  | [], k, v => by simp [dinsert, dlookup]
  | (k', v') :: t, k, v => by
    by_cases h : k' = k
    · simp [dinsert, dlookup, h]
    · simp only [dinsert, if_neg h, dlookup, if_neg h]
      exact dlookup_dinsert_self t k v

theorem dlookup_dinsert_ne {κ ν : Type} [DecidableEq κ] :
    ∀ (d : List (κ × ν)) (k k' : κ) (v : ν), k' ≠ k →
      dlookup (dinsert d k v) k' = dlookup d k'
  | [], k, k', v, h => by simp [dinsert, dlookup, Ne.symm h]
  | (k0, v0) :: t, k, k', v, h => by
    by_cases h0 : k0 = k
    · subst h0
      simp [dinsert, dlookup, Ne.symm h]
    · simp only [dinsert, if_neg h0, dlookup]
      by_cases h1 : k0 = k'
      · simp [h1]
      · rw [if_neg h1, if_neg h1]
        exact dlookup_dinsert_ne t k k' v h

/-- All keys of a translation index are `(word, pinyin)` pairs. -/
def pairKeysOnly (d : TransDict) : Prop :=
  ∀ kv ∈ d, ∃ a b, kv.1 = PyKey.pair a b

theorem dlookup_s_none : ∀ (d : TransDict), pairKeysOnly d → ∀ w : Str,
    dlookup d (PyKey.s w) = none
  | [], _, _ => rfl
  | (k, v) :: t, h, w => by
    obtain ⟨a, b, hk⟩ := h (k, v) (by simp)
    simp only [dlookup]
    have hk' : k = PyKey.pair a b := hk
    have hne : ¬(k = PyKey.s w) := fun hcon => by
      rw [hk'] at hcon
      exact PyKey.noConfusion hcon
    rw [if_neg hne,
      dlookup_s_none t (fun kv hkv => h kv (List.mem_cons_of_mem _ hkv)) w]

theorem pairKeys_dinsert : ∀ (d : TransDict) (a b : Str) (v : Str),
    pairKeysOnly d → pairKeysOnly (dinsert d (.pair a b) v)
  | [], a, b, v, _ => by
    intro kv hkv
    simp only [dinsert, List.mem_singleton] at hkv
    exact ⟨a, b, by simp [hkv]⟩
  | (k0, v0) :: t, a, b, v, h => by
    intro kv hkv
    by_cases h0 : k0 = PyKey.pair a b
    · simp only [dinsert, if_pos h0, List.mem_cons] at hkv
      rcases hkv with hkv | hkv
      · exact ⟨a, b, by simp [hkv]⟩
      · exact h kv (List.mem_cons_of_mem _ hkv)
    · simp only [dinsert, if_neg h0, List.mem_cons] at hkv
      rcases hkv with hkv | hkv
      · exact h kv (by simp [hkv])
      · exact pairKeys_dinsert t a b v
          (fun x hx => h x (List.mem_cons_of_mem _ hx)) kv hkv

theorem pairKeys_cedictStep (d : TransDict) (w py trs : Str) (h : pairKeysOnly d) :
    pairKeysOnly (cedictStep d w py trs) := by
  simp only [cedictStep]
  have h1 := pairKeys_dinsert d w py trs h
  split
  · exact h1
  · exact pairKeys_dinsert _ w (stripDigits py) trs h1

theorem pairKeys_load_aux :
    ∀ (lines : List Str) (d : TransDict), pairKeysOnly d →
      pairKeysOnly (lines.foldl
        (fun d line =>
          match parse_cc_cedict_line line with
          | none => d
          | some (trad, simp, pinyin, trs) =>
            [trad, simp].foldl
              (fun d w => if w ≠ [] then cedictStep d w pinyin trs else d) d)
        d)
  | [], d, h => h
  | line :: lines, d, h => by
    simp only [List.foldl_cons]
    apply pairKeys_load_aux lines
    rcases hp : parse_cc_cedict_line line with - | ⟨t, s, py, trs⟩
    · simpa [hp] using h
    · simp only [hp, List.foldl_cons, List.foldl_nil]
      have h1 : pairKeysOnly (if t ≠ [] then cedictStep d t py trs else d) := by
        split
        · exact pairKeys_cedictStep d t py trs h
        · exact h
      split
      · exact pairKeys_cedictStep _ s py trs h1
      · exact h1

/-- Every key of a CC-CEDICT index is a `(word, pinyin)` pair. -/
theorem pairKeys_load (lines : List Str) : pairKeysOnly (load_cc_cedict lines) :=
  pairKeys_load_aux lines [] (by intro kv hkv; simp at hkv)

theorem idiomFold_mono : ∀ (rs : List Record) (acc : List OutputEntry) (a : OutputEntry),
    a ∈ acc → a ∈ idiomFold acc rs
  | [], acc, a, h => h
  | r :: rs, acc, a, h => by
    unfold idiomFold
    simp only [List.foldl_cons]
    rcases hp : process_idiom r with - | p
    · exact idiomFold_mono rs acc a h
    · exact idiomFold_mono rs (acc ++ [p]) a (by simp [h])

theorem idiomFold_mem : ∀ (rs : List Record) (acc : List OutputEntry) (r : Record)
    (e : OutputEntry), r ∈ rs → process_idiom r = some e → e ∈ idiomFold acc rs
  | [], _, _, _, h, _ => absurd h (by simp)
  | r0 :: rs, acc, r, e, hr, he => by
    unfold idiomFold
    simp only [List.foldl_cons]
    rcases List.mem_cons.mp hr with rfl | hr'
    · rw [he]
      exact idiomFold_mono rs (acc ++ [e]) e (by simp)
    · rcases hp : process_idiom r0 with - | p
      · exact idiomFold_mem rs acc r e hr' he
      · exact idiomFold_mem rs (acc ++ [p]) r e hr' he

/-! ## Claims -/

/-- Character base record with one pinyin but two detail pronunciations. -/
def c1_char_rec : CharRecord where
  char := some (str "中")
  pinyin := some [JVal.jstr (str "ma")]

/-- Detail record carrying two pronunciations for `c1_char_rec`. -/
def c1_detail_rec : DetailRecord where
  char := some (str "中")
  pronunciations := some [{ pinyin := some (str "ma") }, { pinyin := some (str "mo") }]

/-- C1: the claimed invariant `0 <= m.pinyin < len(e.pinyin)` fails on the
code: `get_translation.process_character` sets each meaning's `pinyin` field
to `len(result["meaning"])` — the meaning's ordinal — without ever growing
the pinyin list, so a base record with one pinyin and a detail record with
two pronunciations yields a meaning index 1 against a pinyin list of
length 1. -/
theorem c1_meaning_index_out_of_range :
    (process_character_tr c1_char_rec c1_detail_rec []).pinyin.length = 1
    ∧ (process_character_tr c1_char_rec c1_detail_rec []).meaning.map Meaning.pinyin
        = [0, 1]
    ∧ ¬ meaningIndexInvariant (process_character_tr c1_char_rec c1_detail_rec []) := by
  refine ⟨by decide, by decide, ?_⟩
  intro hinv
  exact absurd (hinv ⟨1, [], []⟩ (by decide)) (by decide)

/-- C3 counterexample: on syllable `lue` with tone 4 the code places the
mark on the first vowel `u`, producing `lùe`, not on `e` as the claim
states — the left-to-right scan deprioritizes only `i`. -/
theorem c3_lue_mark_on_u_cex :
    convert_numbered_pinyin (str "lue") (some '4') = str "[lùe]"
    ∧ str "[lùe]" ≠ str "[luè]" := by
  exact ⟨by decide, by decide⟩

/-- C3 amended: `hao` with tone 3 gives `hǎo` as claimed; `lue` with tone 4
gives `lùe`, the mark landing on the first vowel `u` because the scan skips
ahead only for a non-final `i`. -/
theorem c3_tone_placement :
    convert_numbered_pinyin (str "hao") (some '3') = str "[hǎo]"
    ∧ convertCore (str "hao") 3 = str "hǎo"
    ∧ convert_numbered_pinyin (str "lue") (some '4') = str "[lùe]" := by
  exact ⟨by decide, by decide, by decide⟩

/-- C4: `get_translation` probes the index with the numeric-tone key first
and the toneless key second, returning the first hit or the empty string;
in particular, on an index holding only the toneless key
`("书","shu") → "book\n"`, the lookup for `("书","shū")` falls back to it. -/
theorem c4_get_translation_contract :
    (∀ (w p : Str) (d : TransDict),
      get_translation w p d =
        match dlookup d (PyKey.pair w (convert_tone_markers p)) with
        | some t => t
        | none =>
          match dlookup d (PyKey.pair w (stripDigits (convert_tone_markers p))) with
          | some t => t
          | none => [])
    ∧ get_translation (str "书") (str "shū")
        [(PyKey.pair (str "书") (str "shu"), str "book\n")] = str "book\n" := by
  exact ⟨fun w p d => rfl, by decide⟩

/-- C5: the per-headword, per-line indexing step of `load_cc_cedict` always
writes the exact `(headword, pinyin)` key (overwriting, so the last writer
wins), and preserves an already-present toneless fallback key while writing
it when absent — for any pinyin that carries a tone digit. -/
theorem c5_index_insertion_policy (d : TransDict) (w py tr : Str)
    (hd : py.any Char.isDigit = true) :
    dlookup (cedictStep d w py tr) (PyKey.pair w py) = some tr
    ∧ (∀ v, dlookup d (PyKey.pair w (stripDigits py)) = some v →
        dlookup (cedictStep d w py tr) (PyKey.pair w (stripDigits py)) = some v)
    ∧ (dlookup d (PyKey.pair w (stripDigits py)) = none →
        dlookup (cedictStep d w py tr) (PyKey.pair w (stripDigits py)) = some tr) := by
  have hne : stripDigits py ≠ py := by
    intro heq
    obtain ⟨c, hc, hdig⟩ := List.any_eq_true.mp hd
    have hmem : c ∈ stripDigits py := heq.symm ▸ hc
    have := (List.mem_filter.mp hmem).2
    simp [hdig] at this
  have hkne : PyKey.pair w (stripDigits py) ≠ PyKey.pair w py := by
    simp [hne]
  refine ⟨?_, ?_, ?_⟩
  · simp only [cedictStep]
    split
    · exact dlookup_dinsert_self d (PyKey.pair w py) tr
    · rw [dlookup_dinsert_ne _ _ _ _ (Ne.symm hkne)]
      exact dlookup_dinsert_self d (PyKey.pair w py) tr
  · intro v hv
    simp only [cedictStep]
    have h1 : dlookup (dinsert d (PyKey.pair w py) tr) (PyKey.pair w (stripDigits py))
        = some v := by
      rw [dlookup_dinsert_ne d _ _ _ hkne]
      exact hv
    rw [if_pos (by rw [h1]; rfl)]
    exact h1
  · intro hv
    simp only [cedictStep]
    have h1 : dlookup (dinsert d (PyKey.pair w py) tr) (PyKey.pair w (stripDigits py))
        = none := by
      rw [dlookup_dinsert_ne d _ _ _ hkne]
      exact hv
    rw [if_neg (by rw [h1]; simp)]
    exact dlookup_dinsert_self _ _ _

/-- C5 witness: the policy, instantiated on an empty index with the line
key `("书", "shu1")`. -/
theorem c5_index_insertion_policy_witness :
    dlookup (cedictStep [] (str "书") (str "shu1") (str "book\n"))
      (PyKey.pair (str "书") (str "shu1")) = some (str "book\n")
    ∧ dlookup (cedictStep [] (str "书") (str "shu1") (str "book\n"))
      (PyKey.pair (str "书") (stripDigits (str "shu1"))) = some (str "book\n") :=
  ⟨(c5_index_insertion_policy [] (str "书") (str "shu1") (str "book\n") (by decide)).1,
   (c5_index_insertion_policy [] (str "书") (str "shu1") (str "book\n") (by decide)).2.2
     (by decide)⟩

/-- The idiom record of the C7 example. -/
def c7_idiom_rec : Record where
  word := some (str "一帆风顺")
  pinyin := some (.pstr (str "yi4 fan1 feng1 shun4"))
  similar := some [str "顺利"]

/-- C7: the idiom normalizer on the example record yields exactly the four
digit-stripped pinyin tokens and a single meaning at index 0 whose original
text is the line `近义词：顺利`. -/
theorem c7_idiom_normalizer_example :
    process_idiom c7_idiom_rec
      = some ⟨str "一帆风顺", [], [],
          [str "yi", str "fan", str "feng", str "shun"],
          [⟨0, str "近义词：顺利", []⟩]⟩ := by
  decide

/-- Word record with empty `explanation` and two `explanations` entries
whose `content` values are both the empty string. -/
def c6_empty_contents_rec : Record where
  word := some (str "你好")
  pinyin := some (.plist [str "nǐ", str "hǎo"])
  explanations := some [⟨some []⟩, ⟨some []⟩]

/-- C6 counterexample: a record with an empty `explanation` and no usable
`explanations[].content` (only empty-string contents) is ACCEPTED by the
strict word normalizer, because the `; `-join of two empty contents is the
non-empty separator string `"; "`. -/
theorem c6_empty_contents_accepted_cex :
    c6_empty_contents_rec.explanation = none
    ∧ c6_empty_contents_rec.explanations = some [⟨some []⟩, ⟨some []⟩]
    ∧ process_word_gd c6_empty_contents_rec
        = some ⟨str "你好", [], [], [str "nǐ", str "hǎo"], [⟨0, str "; ", []⟩]⟩ := by
  exact ⟨rfl, rfl, by decide⟩

/-- C6 amended: the strict word normalizer rejects every record whose
character count differs from its syllable count, and rejects a record with
no resolvable explanation in the sense of the code: the `explanation` field
empty and the `; `-join of the present `content` values empty (which holds
when there is no content entry, or exactly one empty one — two or more empty
contents join to `"; "` and are accepted). -/
theorem c6_strict_word_rejections :
    (∀ (wd : Record) (w : Str) (pf : PinyinField), wd.word = some w →
      wd.pinyin = some pf → w.length ≠ (pinyinSegments pf).length →
      process_word_gd wd = none)
    ∧ (∀ wd : Record, resolvedExplGd wd = [] → process_word_gd wd = none) := by
  constructor
  · intro wd w pf hw hp hne
    simp [process_word_gd, hw, hp, hne]
  · intro wd hres
    rcases hw : wd.word with - | w
    · simp [process_word_gd, hw]
    · rcases hp : wd.pinyin with - | pf
      · simp [process_word_gd, hw, hp]
      · simp only [process_word_gd, hw, hp]
        by_cases hlen : w.length ≠ (pinyinSegments pf).length
        · simp [hlen]
        · rw [if_neg hlen]
          by_cases hv : validSyllablesGd (pinyinSegments pf) = []
          · simp [hv]
          · rw [if_neg hv, hres, if_pos rfl]

/-- Word record rejected for the claimed syllable-count mismatch. -/
def c6_mismatch_rec : Record where
  word := some (str "你好")
  pinyin := some (.plist [str "ni3"])
  explanation := some (str "hello")

/-- Word record rejected for carrying no explanation at all. -/
def c6_noexpl_rec : Record where
  word := some (str "你")
  pinyin := some (.pstr (str "ni3"))

/-- C6 witness: both rejection rules applied at concrete records, including
the claim's own `你好` / `["ni3"]` example. -/
theorem c6_strict_word_rejections_witness :
    process_word_gd c6_mismatch_rec = none ∧ process_word_gd c6_noexpl_rec = none :=
  ⟨c6_strict_word_rejections.1 c6_mismatch_rec (str "你好") (.plist [str "ni3"])
    rfl rfl (by decide),
   c6_strict_word_rejections.2 c6_noexpl_rec (by decide)⟩

/-- C8 counterexample: the line `0` parses successfully to the non-object
value `0`, yet the loader drops it — `if parsed:` filters falsy parsed
values, not just failed parses. -/
theorem c8_falsy_scalar_dropped_cex :
    jsonLoadsLit (str "0") = some (JVal.jnum 0)
    ∧ clean_json_line jsonLoadsLit (str "0") = some (JVal.jnum 0)
    ∧ load_json_lines jsonLoadsLit [str "0"] = [] :=
  ⟨rfl, rfl, rfl⟩

/-- C8 amended: a line whose cleaned content parses (to any value, object
or not) is kept by the loader exactly when the parsed value is truthy in
the Python sense; falsy values — `0`, `""`, `false`, `null`, empty
containers — are silently dropped. -/
theorem c8_loader_truthiness (loads : Str → Option JVal) (l : Str)
    (rest : List Str) (v : JVal) (h : clean_json_line loads l = some v) :
    load_json_lines loads (l :: rest)
      = (if pytruthy v then [v] else []) ++ load_json_lines loads rest := by
  simp only [load_json_lines, List.filterMap_cons, h, Option.bind_some]
  cases hpt : pytruthy v <;> simp [hpt]

/-- C8 witness: the truthy scalar line `42` is kept. -/
theorem c8_loader_truthiness_witness :
    load_json_lines jsonLoadsLit [str "42"] = [JVal.jnum 42] :=
  (c8_loader_truthiness jsonLoadsLit (str "42") [] (JVal.jnum 42) rfl).trans rfl

/-- Word record accepted by every word normalizer. -/
def c9_word_rec : Record where
  word := some (str "你")
  pinyin := some (.pstr (str "ni3"))
  explanation := some (str "you")

/-- Idiom record accepted by the idiom normalizer and the word normalizer
alike. -/
def c9_idiom_rec : Record where
  word := some (str "好")
  pinyin := some (.pstr (str "hao3"))
  explanation := some (str "good")

/-- The entry the pipeline produces for `c9_word_rec`. -/
def c9_word_out : OutputEntry :=
  ⟨str "你", [], [], [str "ni"], [⟨0, str "you", []⟩]⟩

/-- The entry the idiom normalizer produces for `c9_idiom_rec`. -/
def c9_idiom_out : OutputEntry :=
  ⟨str "好", [], [], [str "hao"], [⟨0, str "good", []⟩]⟩

/-- C9 counterexample: in `get_dict.convert_data` the words and idioms share
one capped loop, so with `max_items = 1` an idiom record accepted by the
normalizers is dropped — the cap does apply to idioms in that orchestrator. -/
theorem c9_get_dict_caps_idioms_cex :
    process_idiom c9_idiom_rec = some c9_idiom_out
    ∧ process_word_gd c9_idiom_rec = some c9_idiom_out
    ∧ convert_data_gd [] [] [c9_word_rec] [c9_idiom_rec] (some 1) = [c9_word_out]
    ∧ c9_idiom_out ∉ convert_data_gd [] [] [c9_word_rec] [c9_idiom_rec] (some 1) := by
  exact ⟨by decide, by decide, by decide, by decide⟩

/-- C9 amended: in `converte_dict.convert_data` (the orchestrator with the
dedicated idiom normalizer) idioms are indeed never capped: every idiom
record the idiom normalizer accepts is appended to the output, for any cap
and any inputs.  In `get_dict.convert_data` the cap covers idioms too. -/
theorem c9_idioms_never_capped_cd (char_base : List CharRecord)
    (char_detail : List DetailRecord) (word_data idiom_data : List Record)
    (cap : Option Nat) (r : Record) (e : OutputEntry)
    (hr : r ∈ idiom_data) (he : process_idiom r = some e) :
    e ∈ convert_data_cd char_base char_detail word_data idiom_data cap := by
  simp only [convert_data_cd]
  exact idiomFold_mem idiom_data _ r e hr he

/-- C9 witness: with the cap already reached by the word loop, the accepted
idiom still appears in the permissive orchestrator's output. -/
theorem c9_idioms_never_capped_cd_witness :
    c9_idiom_out ∈ convert_data_cd [] [] [c9_word_rec] [c9_idiom_rec] (some 1) :=
  c9_idioms_never_capped_cd [] [] [c9_word_rec] [c9_idiom_rec] (some 1)
    c9_idiom_rec c9_idiom_out (by decide) (by decide)

/-- C10: in the translation-enabled pipeline, every accepted word record
gets the empty translation whatever CC-CEDICT source the index was built
from: the lookup key is the bare word string while every index key is a
`(headword, pinyin)` pair. -/
theorem c10_translation_always_empty (lines : List Str) (wd : Record)
    (e : OutputEntry) (h : process_word_tr wd (load_cc_cedict lines) = some e) :
    ∀ m ∈ e.meaning, m.translation = [] := by
  rcases hw : wd.word with - | w
  · simp [process_word_tr, hw] at h
  · rcases hp : wd.pinyin with - | pf
    · simp [process_word_tr, hw, hp] at h
    · simp only [process_word_tr, hw, hp] at h
      rw [dlookup_s_none _ (pairKeys_load lines) w] at h
      obtain rfl :
          (⟨w, [], [], (pinyinSegments pf).map stripDigitsWS,
            [⟨0, resolvedExplGd wd, (none : Option Str).getD []⟩]⟩ : OutputEntry)
          = e := by simpa using h
      intro m hm
      simp only [List.mem_singleton] at hm
      subst hm
      rfl

/-- Word record with a translation-bearing shape for the C10 witness. -/
def c10_word_rec : Record where
  word := some (str "你好")
  pinyin := some (.pstr (str "ni3 hao3"))
  explanation := some (str "hello")

/-- C10 witness: the theorem applied to a concrete record against the index
of an empty CC-CEDICT source. -/
theorem c10_translation_always_empty_witness :
    (⟨0, str "hello", []⟩ : Meaning).translation = [] :=
  c10_translation_always_empty [] c10_word_rec
    ⟨str "你好", [], [], [str "ni", str "hao"], [⟨0, str "hello", []⟩]⟩
    (by decide) ⟨0, str "hello", []⟩ (by decide)

/-- C2 counterexample: on `hao3` the round trip fails.  The diacritic form
is `hǎo`, but `convert_tone_markers` inserts the digit right after the
marked vowel, giving `ha3o`; that string no longer matches
`([a-z]+)(\d?)`, so the second diacritic conversion leaves it unchanged and
differs from `hǎo`. -/
theorem c2_roundtrip_cex :
    diaSyllable (str "hao3") = str "hǎo"
    ∧ convert_tone_markers (diaSyllable (str "hao3")) = str "ha3o"
    ∧ diaSyllable (convert_tone_markers (diaSyllable (str "hao3")))
        ≠ diaSyllable (str "hao3") := by
  exact ⟨by decide, by decide, by decide⟩

/-- C2 amended: the round trip
`diacritic(numeric(diacritic(s))) = diacritic(s)` holds exactly on the
syllables whose tone mark lands on the final letter (then the numeric form
recovers `s` itself); for a syllable marked on an inner vowel, such as
`hao3`, the digit ends up mid-string and the claim fails. -/
theorem c2_roundtrip_final_vowel (base : Str) (d : Char) (hb : base ≠ [])
    (hlow : ∀ c ∈ base, c ∈ lowerAlphaList) (hd : d ∈ toneDigits)
    (hscan : findVowelPos base = some (base.length - 1)) :
    diaSyllable (convert_tone_markers (diaSyllable (base ++ [d])))
      = diaSyllable (base ++ [d]) := by
  have hmatch := tryMatchPy_syllable base d hb hlow hd
  have hdia : diaSyllable (base ++ [d]) = convertCore base (digitToNat d) := by
    unfold diaSyllable
    rw [hmatch]
    rfl
  obtain ⟨hk, hv⟩ := findVowelPos_vowel hscan
  have hlen : 0 < base.length := List.length_pos.mpr hb
  obtain ⟨row, hrow⟩ := Option.isSome_iff_exists.mp
    (toneRow_isSome (base.get ⟨base.length - 1, hk⟩) hv)
  have htone : digitToNat d ≤ 4 := toneDigit_le4 d hd
  have hgetelem : base[base.length - 1]? = some (base.get ⟨base.length - 1, hk⟩) := by
    rw [List.getElem?_eq_getElem hk]
    simp [List.get_eq_getElem]
  have hgetd : base.getD (base.length - 1) ' ' = base.get ⟨base.length - 1, hk⟩ := by
    rw [List.getD_eq_getElem?_getD, hgetelem]
    rfl
  have hcc : convertCore base (digitToNat d)
      = base.take (base.length - 1) ++ [row.getD (digitToNat d) ' '] := by
    simp only [convertCore]
    rw [replaceUColon_id base hlow]
    simp only [hscan]
    rw [hgetd]
    simp only [hrow]
    rw [if_pos htone]
    have hdrop : base.drop (base.length - 1 + 1) = [] :=
      List.drop_eq_nil_of_le (by omega)
    rw [hdrop]
    simp
  have hbase_eq : base.take (base.length - 1) ++ [base.get ⟨base.length - 1, hk⟩]
      = base := by
    have h1 : base.take (base.length - 1 + 1)
        = base.take (base.length - 1) ++ [base.get ⟨base.length - 1, hk⟩] := by
      rw [List.take_succ, hgetelem]
      rfl
    have h2 : base.take (base.length - 1 + 1) = base := by
      have h3 : base.length - 1 + 1 = base.length := by omega
      rw [h3, List.take_length]
    rw [← h1, h2]
  have hctm : convert_tone_markers
      (base.take (base.length - 1) ++ [row.getD (digitToNat d) ' '])
      = base ++ [d] := by
    rw [ctm_append,
      ctm_lower_id (base.take (base.length - 1))
        (fun c hc => hlow c (List.mem_of_mem_take hc))]
    have hm := ctm_marked (base.get ⟨base.length - 1, hk⟩) hv d hd
    rw [hrow] at hm
    simp only [Option.getD_some] at hm
    rw [hm,
      show ([base.get ⟨base.length - 1, hk⟩, d] : Str)
          = [base.get ⟨base.length - 1, hk⟩] ++ [d] from rfl,
      ← List.append_assoc, hbase_eq]
  rw [hdia, hcc, hctm, hdia, hcc]

/-- C2 witness: the amended round trip at the syllable `yi3`, whose mark
lands on the final `i`. -/
theorem c2_roundtrip_final_vowel_witness :
    diaSyllable (convert_tone_markers (diaSyllable (str "yi" ++ ['3'])))
      = diaSyllable (str "yi" ++ ['3']) :=
  c2_roundtrip_final_vowel (str "yi") '3' (by decide) (by decide) (by decide)
    (by decide)
